import Mathlib

/-!
Verification of the gdax-ohlc-import pipeline (src/main.py), shallowly
embedded in Lean 4.  Datetimes are modelled as integers on a single
timeline (the unit is minutes, matching `timedelta(minutes=300)`); JSON
numbers in API candle records are modelled as `Int` (the GDAX `time`
field is an epoch integer, and Python's `str` on an integer agrees with
`toString`).  Definitions come first, then the theorems about them.
-/

namespace GdaxImport

/-! ## HTTP fetch layer: `get(url, params)` (src/main.py lines 66-88)

The body of `get` is a loop `for i in range(tries)` with `tries = 3`.
Each iteration issues one request; on an `HTTPError` with status 429 or
500 and `i < tries - 1` it sleeps one second and retries, otherwise it
re-raises; on success it breaks and returns the parsed body.  We model
the sequence of request outcomes as a function `resp : Nat → HttpOutcome`
(attempt index ↦ outcome of the request issued on that attempt) and
record, with the final result, how many request attempts were issued and
how many one-second inter-attempt sleeps happened. -/

/-- Outcome of a single HTTP request attempt: a parsed successful
response, or an `HTTPError` carrying its status code. -/
inductive HttpOutcome (α : Type) where
  | ok (v : α)
  | err (status : Nat)

/-- Result of running `get`: the returned parsed response or the raised
status, together with the number of request attempts made and the number
of one-second sleeps taken between consecutive attempts. -/
structure GetTrace (α : Type) where
  result : Except Nat α
  attempts : Nat
  sleeps : Nat

/-- The retry loop of `get` from attempt index `i` with the fixed bound
`tries`: mirrors `for i in range(tries): try ... except HTTPError as e:
if e.response.status_code in (429, 500) and (i < tries - 1): sleep(1);
continue; else: raise`. -/
def getFrom {α : Type} (resp : Nat → HttpOutcome α) (tries : Nat) (i : Nat) :
    GetTrace α :=
  match resp i with
  | HttpOutcome.ok v => ⟨Except.ok v, 1, 0⟩
  | HttpOutcome.err s =>
    if (s = 429 ∨ s = 500) ∧ i < tries - 1 then
      let t := getFrom resp tries (i + 1)
      ⟨t.result, t.attempts + 1, t.sleeps + 1⟩
    else
      ⟨Except.error s, 1, 0⟩
termination_by tries - 1 - i
decreasing_by omega

/-- `get(url, params)`: three attempts total (`tries = 3` in the source). -/
def get {α : Type} (resp : Nat → HttpOutcome α) : GetTrace α :=
  getFrom resp 3 0

/-! ## Window generation: `daterange(start, end, step)` (lines 59-63)

`daterange` yields `(curr, curr + step)` while `curr < end`, advancing
`curr` by `step`.  The guard `0 < step` makes the recursion total; for
`step ≤ 0` the Python generator would never terminate, and every claim
about it assumes `step > 0`. -/

/-- The window generator `daterange`. -/
def daterange (start e step : Int) : List (Int × Int) :=
  if _h : start < e ∧ 0 < step then
    (start, start + step) :: daterange (start + step) e step
  else
    []
termination_by (e - start).toNat
decreasing_by omega

/-! ## Candle batches: `get_candles(product, start_date, end_date)`
(lines 91-125)

A raw API candle record is a JSON array of numbers
`[time, low, high, open, close, volume]` (occasionally malformed, i.e.
not of length 6).  `get_candles` subtracts `timedelta(minutes=300)` from
`end_date`, returns an empty sequence if the result is before
`start_date`, and otherwise walks `daterange(start_date, end_date, d)`,
calling `get` once per window and yielding each parsed batch; if `get`
raises an `HTTPError` the generator logs and returns, ending the
sequence without re-raising.  The outcome of the fetch for each window
(the terminal result of `get`, after its internal retries) is modelled
as a function `fetch : window → Except status batch`. -/

/-- A raw API candle record. -/
abbrev Candle := List Int

/-- The `time` field of a candle record: its first element. -/
def candleTime (c : Candle) : Int := c.headD 0

/-- `timedelta(minutes=300)`: page span, step size and freshness margin. -/
def pageSpan : Int := 300

/-- The request windows issued by `get_candles(product, start_date,
end_date)`: empty when `end_date - 300min < start_date`, otherwise
`daterange(start_date, end_date - 300min, 300min)`. -/
def get_candles_windows (start_date end_date : Int) : List (Int × Int) :=
  if end_date - pageSpan < start_date then []
  else daterange start_date (end_date - pageSpan) pageSpan

/-- Walk a list of windows, fetching each: a successful batch is yielded
and iteration continues; a terminal `HTTPError` ends the sequence there
(the `except ... return` in `get_candles`), yielding nothing further and
raising nothing. -/
def fetchBatches {β : Type} (fetch : Int × Int → Except Nat β) :
    List (Int × Int) → List β
  | [] => []
  | w :: ws =>
    match fetch w with
    | Except.ok b => b :: fetchBatches fetch ws
    | Except.error _ => []

/-- The full sequence of batches yielded by `get_candles`. -/
def get_candles (fetch : Int × Int → Except Nat (List Candle))
    (start_date end_date : Int) : List (List Candle) :=
  fetchBatches fetch (get_candles_windows start_date end_date)

/-- A call to `get_candles` that omits `end_date`.  Python evaluates the
default expression `end_date=datetime.now()` exactly once, when the
`def` statement executes at module load; so the module-load time
`loadTime` is used and the time `callTime` at which the call happens
plays no role. -/
def get_candles_default_call (fetch : Int × Int → Except Nat (List Candle))
    (loadTime : Int) (callTime : Int) (start_date : Int) : List (List Candle) :=
  get_candles fetch start_date loadTime

/-- The upstream API contract (spec §6): a successful response to a
window request contains only candles whose `time` lies within the
requested `[start, end]` range. -/
def ConformingFetch (fetch : Int × Int → Except Nat (List Candle)) : Prop :=
  ∀ w b, fetch w = Except.ok b → ∀ c ∈ b, w.1 ≤ candleTime c ∧ candleTime c ≤ w.2

/-- An API model that always succeeds and returns, for each requested
window, exactly the candles of a fixed pool whose `time` falls in the
requested range. -/
def poolFetch (pool : List Candle) (w : Int × Int) : Except Nat (List Candle) :=
  Except.ok (pool.filter (fun c => decide (w.1 ≤ candleTime c ∧ candleTime c ≤ w.2)))

/-! ## The store: `create_table` and `insert_db` (lines 44-56, 128-148)

The table is `candles(market TEXT, time TEXT, open TEXT, high TEXT,
low TEXT, close TEXT, volume TEXT, PRIMARY KEY (market, time))`, modelled
as a list of rows in insertion order.  `insert_db` runs `INSERT OR
IGNORE INTO candles(market, time, low, high, open, close, volume)
VALUES (?, ?, ?, ?, ?, ?, ?)` over the rows produced by
`candle_generator`, which skips (with one warning) every candle whose
length is not exactly 6, converts each value with `str`, and prepends
the product. -/

/-- A row of the `candles` table; fields in the table's declared column
order (the `open` column is `open_` because `open` is a Lean keyword). -/
structure Row where
  market : String
  time : String
  open_ : String
  high : String
  low : String
  close : String
  volume : String
deriving DecidableEq, Repr

/-- The primary key `(market, time)` of a row. -/
def Row.key (r : Row) : String × String := (r.market, r.time)

/-- The `candles` table: rows in insertion order. -/
abbrev Store := List Row

/-- Whether a row with the given primary key exists. -/
def hasKey (st : Store) (k : String × String) : Bool :=
  st.any (fun r => r.key == k)

/-- One `INSERT OR IGNORE` of a single row: dropped when a row with the
same primary key `(market, time)` already exists, appended otherwise.
Existing rows are never modified. -/
def insertRow (st : Store) (r : Row) : Store :=
  if hasKey st r.key then st else st ++ [r]

/-- `executemany`: the single-row insert applied to each generated row in
order. -/
def insertRows (st : Store) (rs : List Row) : Store :=
  rs.foldl insertRow st

/-- The row produced from one well-formed API candle
`[time, low, high, open, close, volume]` (`none` when the length test
`len(candle) != 6` fails and the candle is skipped).  The INSERT
statement names its columns `(market, time, low, high, open, close,
volume)`, so the i-th bound value goes to the i-th *named* column:
value 0 is the candle's `time`, value 1 its `low`, value 2 its `high`,
value 3 its `open`, value 4 its `close`, value 5 its `volume` —
independent of the table's declared column order. -/
def rowOfCandle (product : String) (c : Candle) : Option Row :=
  if c.length = 6 then
    some { market := product
           time := toString (c.getD 0 0)
           open_ := toString (c.getD 3 0)
           high := toString (c.getD 2 0)
           low := toString (c.getD 1 0)
           close := toString (c.getD 4 0)
           volume := toString (c.getD 5 0) }
  else
    none

/-- The rows produced by `candle_generator` for a batch: malformed
candles are skipped, the others become rows. -/
def candleRows (product : String) (candles : List Candle) : List Row :=
  candles.filterMap (rowOfCandle product)

/-- The number of `Response length invalid` warnings logged by
`candle_generator`: one per skipped candle. -/
def insertWarnings (candles : List Candle) : Nat :=
  (candles.filter (fun c => c.length != 6)).length

/-- `insert_db(cur, product, candles)`. -/
def insert_db (st : Store) (product : String) (candles : List Candle) : Store :=
  insertRows st (candleRows product candles)

/-! ## The driver loop of `main` (lines 196-212) -/

/-- The body of `main`'s loop for one product: stream the batches of
`get_candles` and persist each through `insert_db`. -/
def runProduct (fetch : Int × Int → Except Nat (List Candle)) (st : Store)
    (product : String) (start_date end_date : Int) : Store :=
  (get_candles fetch start_date end_date).foldl
    (fun s b => insert_db s product b) st

/-- The driver's outer loop: products processed sequentially, each one's
batches persisted before the next product starts.  `fetch p` is the
fetch behaviour for product `p` and `startOf p` its resolved start
date. -/
def runAll (fetch : String → Int × Int → Except Nat (List Candle))
    (startOf : String → Int) (end_date : Int) (st : Store) :
    List String → Store
  | [] => st
  | p :: ps =>
    runAll fetch startOf end_date
      (runProduct (fetch p) st p (startOf p) end_date) ps

/-! ## Start-date resolution: `get_start_date` and `main` (lines 151-161,
196-204)

`get_start_date` runs `select max(time) from candles where market=?`.
The `time` column is TEXT, so SQLite's `max` aggregate compares values
with the BINARY collation: memcmp of the byte sequences, the shorter
string sorting first on a tie.  The result (if not NULL) is fed through
`int(...)` and `datetime.utcfromtimestamp`; on NULL, `int(None)` raises
`TypeError` and the registry date `PRODUCTS[product]` is parsed with
`strptime`.  In `main`, an explicit `--start-date` is parsed with
`strptime` and bypasses `get_start_date` entirely. -/

/-- SQLite BINARY collation on TEXT: byte-lexicographic comparison (for
the ASCII digit strings stored in `time`, bytes are `Char.toNat`). -/
def bytesLt : List Char → List Char → Bool
  | [], [] => false
  | [], _ :: _ => true
  | _ :: _, [] => false
  | a :: as, b :: bs =>
    if a.toNat < b.toNat then true
    else if b.toNat < a.toNat then false
    else bytesLt as bs

/-- BINARY-collation comparison of two TEXT values. -/
def textLt (s t : String) : Bool := bytesLt s.data t.data

/-- The `time` values of the rows stored for a market: the column over
which `max(time)` aggregates after the `where market=?` filter. -/
def timesOf (st : Store) (product : String) : List String :=
  (st.filter (fun r => r.market == product)).map Row.time

/-- One step of the `max` aggregate over TEXT values: keep the larger of
the accumulator and the next value under TEXT ordering. -/
def sqlMaxStep (acc : Option String) (t : String) : Option String :=
  match acc with
  | none => some t
  | some m => some (if textLt m t then t else m)

/-- `select max(time) from candles where market=?`: the greatest stored
`time` string for the given market under TEXT ordering, or NULL when the
market has no rows. -/
def maxTimeStr (st : Store) (product : String) : Option String :=
  (timesOf st product).foldl sqlMaxStep none

/-- Whether every character of a string is an ASCII decimal digit. -/
def isDigitStr (s : String) : Bool :=
  s.data.all (fun c => 48 ≤ c.toNat && c.toNat ≤ 57)

/-- Numeric value of a list of ASCII decimal digits. -/
def digitsVal (l : List Char) : Nat :=
  l.foldl (fun a c => 10 * a + (c.toNat - 48)) 0

/-- Python's `int(s)` on a string of ASCII decimal digits. -/
def strVal (s : String) : Nat := digitsVal s.data

/-- A datetime value as produced by this program: either
`datetime.utcfromtimestamp(n)` for an epoch integer `n`, or
`datetime.strptime(s, ...)` for a date string `s` (the two never denote
the same construction site, which is all the claims need). -/
inductive PyDatetime where
  | fromTimestamp (n : Nat)
  | fromDateString (s : String)
deriving DecidableEq, Repr

/-- The instrument registry `PRODUCTS` (lines 17-33). -/
def PRODUCTS : List (String × String) :=
  [("BCH-BTC", "2018-01-17"), ("BCH-USD", "2017-12-20"),
   ("BCH-EUR", "2018-01-24"), ("BTC-EUR", "2015-04-23"),
   ("BTC-USD", "2015-01-08"), ("BTC-GBP", "2015-04-21"),
   ("ETH-BTC", "2016-05-18"), ("ETH-EUR", "2017-05-23"),
   ("ETH-USD", "2016-05-18"), ("LTC-BTC", "2016-08-17"),
   ("LTC-USD", "2016-08-17"), ("LTC-EUR", "2017-05-22")]

/-- `get_start_date(product, cur)`: resume from the latest stored value
(`utcfromtimestamp(int(max(time)))`) or, when `max(time)` is NULL (no
rows, so `int(None)` raises the caught `TypeError`), from the registry's
first trading day.  `none` models the `KeyError` raised when the product
is missing from `PRODUCTS`. -/
def get_start_date (product : String) (st : Store) : Option PyDatetime :=
  match maxTimeStr st product with
  | some t => some (PyDatetime.fromTimestamp (strVal t))
  | none => (PRODUCTS.lookup product).map PyDatetime.fromDateString

/-- Start-date resolution in `main`: an explicit `--start-date` override
is parsed with `strptime` and takes precedence; otherwise
`get_start_date` decides. -/
def resolveStartDate (override : Option String) (product : String)
    (st : Store) : Option PyDatetime :=
  match override with
  | some s => some (PyDatetime.fromDateString s)
  | none => get_start_date product st

/-! ## Theorems about `daterange` -/

theorem daterange_eq_cons {start e step : Int} (hs : start < e) (hstep : 0 < step) :
    daterange start e step =
      (start, start + step) :: daterange (start + step) e step := by
  rw [daterange.eq_def]
  simp [hs, hstep]

theorem daterange_eq_nil {start e step : Int} (h : ¬(start < e ∧ 0 < step)) :
    daterange start e step = [] := by
  rw [daterange.eq_def]
  simp only [dif_neg h]

/-- Every yielded window has the shape `(curr, curr + step)`. -/
theorem daterange_snd_eq {start e step : Int} :
    ∀ w ∈ daterange start e step, w.2 = w.1 + step := by
  induction start, e, step using daterange.induct with
  | case1 s e step h ih =>
    intro w hw
    rw [daterange_eq_cons h.1 h.2] at hw
    simp only [List.mem_cons] at hw
    rcases hw with hw | hw
    · simp [hw]
    · exact ih w hw
  | case2 s e step h =>
    intro w hw
    rw [daterange_eq_nil h] at hw
    exact absurd hw (List.not_mem_nil w)

/-- Every yielded window's start is a cursor value: at least `start` and
strictly below `e`. -/
theorem daterange_fst_bounds {start e step : Int} :
    ∀ w ∈ daterange start e step, start ≤ w.1 ∧ w.1 < e := by
  induction start, e, step using daterange.induct with
  | case1 s e step h ih =>
    intro w hw
    rw [daterange_eq_cons h.1 h.2] at hw
    simp only [List.mem_cons] at hw
    rcases hw with hw | hw
    · simp [hw, h.1]
    · have := ih w hw
      exact ⟨by linarith [this.1, h.2], this.2⟩
  | case2 s e step h =>
    intro w hw
    rw [daterange_eq_nil h] at hw
    exact absurd hw (List.not_mem_nil w)

/-- Consecutive windows are contiguous: each window's end is the next
window's start. -/
theorem daterange_chain {start e step : Int} :
    List.Chain' (fun a b => a.2 = b.1) (daterange start e step) := by
  induction start, e, step using daterange.induct with
  | case1 s e step h ih =>
    rw [daterange_eq_cons h.1 h.2]
    by_cases h2 : s + step < e
    · rw [daterange_eq_cons h2 h.2] at ih ⊢
      exact List.Chain'.cons rfl ih
    · rw [daterange_eq_nil (fun hc => h2 hc.1)]
      exact List.chain'_singleton _
  | case2 s e step h =>
    rw [daterange_eq_nil h]
    exact List.chain'_nil

/-- Coverage: every time point in `[start, e)` lies inside some yielded
window `[w.1, w.2)`. -/
theorem daterange_covers {start e step : Int} :
    0 < step → ∀ t : Int, start ≤ t → t < e →
      ∃ w ∈ daterange start e step, w.1 ≤ t ∧ t < w.2 := by
  induction start, e, step using daterange.induct with
  | case1 s e step h ih =>
    intro hstep t hst hte
    by_cases hlt : t < s + step
    · refine ⟨(s, s + step), ?_, hst, hlt⟩
      rw [daterange_eq_cons h.1 h.2]
      simp
    · obtain ⟨w, hw, hw1, hw2⟩ := ih hstep t (by omega) hte
      refine ⟨w, ?_, hw1, hw2⟩
      rw [daterange_eq_cons h.1 h.2]
      exact List.mem_cons_of_mem _ hw
  | case2 s e step h =>
    intro hstep t hst hte
    exact absurd ⟨lt_of_le_of_lt hst hte, hstep⟩ h

/-- Windows are pairwise non-overlapping: each window ends no later than
any later window starts. -/
theorem daterange_pairwise {start e step : Int} :
    List.Pairwise (fun a b => a.2 ≤ b.1) (daterange start e step) := by
  induction start, e, step using daterange.induct with
  | case1 s e step h ih =>
    rw [daterange_eq_cons h.1 h.2]
    refine List.Pairwise.cons ?_ ih
    intro w hw
    exact (daterange_fst_bounds w hw).1
  | case2 s e step h =>
    rw [daterange_eq_nil h]
    exact List.Pairwise.nil

/-- C4: for all `start < end` and `step > 0`, `daterange` produces a
finite sequence of `(cursor, cursor + step)` windows that starts at
`start`, is contiguous (each window's end is the next one's start), has
no overlaps, covers every point of `[start, end)`, and in which only the
final window's end can reach past `end` (every non-final window ends
strictly before `end`). -/
theorem daterange_window_coverage (start e step : Int)
    (hs : start < e) (hstep : 0 < step) :
    (daterange start e step).head? = some (start, start + step) ∧
    (∀ w ∈ daterange start e step, w.2 = w.1 + step) ∧
    List.Chain' (fun a b => a.2 = b.1) (daterange start e step) ∧
    (∀ t : Int, start ≤ t → t < e →
      ∃ w ∈ daterange start e step, w.1 ≤ t ∧ t < w.2) ∧
    List.Pairwise (fun a b => a.2 ≤ b.1) (daterange start e step) ∧
    (∀ i (h1 : i < (daterange start e step).length)
      (_h2 : i + 1 < (daterange start e step).length),
      ((daterange start e step).get ⟨i, h1⟩).2 < e) := by
  refine ⟨?_, daterange_snd_eq, daterange_chain, daterange_covers hstep,
    daterange_pairwise, ?_⟩
  · rw [daterange_eq_cons hs hstep]
    rfl
  · intro i h1 h2
    have hchain := List.chain'_iff_get.mp
      (@daterange_chain start e step) i (by omega)
    rw [hchain]
    have hmem : (daterange start e step).get ⟨i + 1, by omega⟩ ∈
        daterange start e step := List.get_mem _ _ _
    exact (daterange_fst_bounds _ hmem).2

/-- Witness for C4 at `start = 0`, `end = 5`, `step = 2`. -/
theorem daterange_window_coverage_witness :
    (daterange 0 5 2).head? = some (0, 0 + 2) ∧
    (∀ w ∈ daterange 0 5 2, w.2 = w.1 + 2) ∧
    List.Chain' (fun a b => a.2 = b.1) (daterange 0 5 2) ∧
    (∀ t : Int, 0 ≤ t → t < 5 →
      ∃ w ∈ daterange 0 5 2, w.1 ≤ t ∧ t < w.2) ∧
    List.Pairwise (fun a b => a.2 ≤ b.1) (daterange 0 5 2) ∧
    (∀ i (h1 : i < (daterange 0 5 2).length)
      (_h2 : i + 1 < (daterange 0 5 2).length),
      ((daterange 0 5 2).get ⟨i, h1⟩).2 < 5) :=
  daterange_window_coverage 0 5 2 (by decide) (by decide)

/-! ## Theorems about `get` -/

theorem getFrom_ok {α : Type} {resp : Nat → HttpOutcome α} {tries i : Nat}
    {v : α} (h : resp i = HttpOutcome.ok v) :
    getFrom resp tries i = ⟨Except.ok v, 1, 0⟩ := by
  rw [getFrom.eq_def, h]

theorem getFrom_err_retry {α : Type} {resp : Nat → HttpOutcome α}
    {tries i s : Nat} (h : resp i = HttpOutcome.err s)
    (hs : s = 429 ∨ s = 500) (hi : i < tries - 1) :
    getFrom resp tries i =
      ⟨(getFrom resp tries (i + 1)).result,
       (getFrom resp tries (i + 1)).attempts + 1,
       (getFrom resp tries (i + 1)).sleeps + 1⟩ := by
  rw [getFrom.eq_def, h]
  simp [hs, hi]

theorem getFrom_err_stop {α : Type} {resp : Nat → HttpOutcome α}
    {tries i s : Nat} (h : resp i = HttpOutcome.err s)
    (hns : ¬((s = 429 ∨ s = 500) ∧ i < tries - 1)) :
    getFrom resp tries i = ⟨Except.error s, 1, 0⟩ := by
  rw [getFrom.eq_def, h]
  simp only [if_neg hns]

/-- C2: two 429 failures followed by a success make `get` return the
successful parsed response after exactly three attempts with two
one-second sleeps; three consecutive retriable failures (status 429 or
500 each time) make `get` raise the last failure after exactly three
attempts — never a fourth — again with a one-second sleep between
consecutive attempts. -/
theorem get_retry_ceiling {α : Type} :
    (∀ (resp : Nat → HttpOutcome α) (v : α),
      resp 0 = HttpOutcome.err 429 → resp 1 = HttpOutcome.err 429 →
      resp 2 = HttpOutcome.ok v →
      get resp = ⟨Except.ok v, 3, 2⟩) ∧
    (∀ (resp : Nat → HttpOutcome α) (s0 s1 s2 : Nat),
      s0 = 429 ∨ s0 = 500 → s1 = 429 ∨ s1 = 500 → s2 = 429 ∨ s2 = 500 →
      resp 0 = HttpOutcome.err s0 → resp 1 = HttpOutcome.err s1 →
      resp 2 = HttpOutcome.err s2 →
      get resp = ⟨Except.error s2, 3, 2⟩) := by
  constructor
  · intro resp v h0 h1 h2
    rw [get, getFrom_err_retry h0 (Or.inl rfl) (by omega),
      getFrom_err_retry h1 (Or.inl rfl) (by omega), getFrom_ok h2]
  · intro resp s0 s1 s2 hs0 hs1 hs2 h0 h1 h2
    rw [get, getFrom_err_retry h0 hs0 (by omega),
      getFrom_err_retry h1 hs1 (by omega),
      getFrom_err_stop h2 (by omega)]

/-- Witness for C2: a response sequence failing twice with 429 and then
succeeding, and one failing with 429 on all three attempts. -/
theorem get_retry_ceiling_witness :
    get (fun i => if i < 2 then HttpOutcome.err 429 else HttpOutcome.ok (7 : Nat)) =
      ⟨Except.ok 7, 3, 2⟩ ∧
    get (fun _ => (HttpOutcome.err 429 : HttpOutcome Nat)) =
      ⟨Except.error 429, 3, 2⟩ :=
  ⟨(get_retry_ceiling.1) _ 7 rfl rfl rfl,
   (get_retry_ceiling.2) _ 429 429 429 (Or.inl rfl) (Or.inl rfl) (Or.inl rfl)
     rfl rfl rfl⟩

/-- C6: a first attempt failing with any HTTP error status other than
429 and 500 makes `get` raise immediately: exactly one attempt, no
retry, no inter-attempt sleep. -/
theorem get_permanent_no_retry {α : Type} (resp : Nat → HttpOutcome α)
    (s : Nat) (hs : ¬(s = 429 ∨ s = 500))
    (h0 : resp 0 = HttpOutcome.err s) :
    get resp = ⟨Except.error s, 1, 0⟩ := by
  rw [get, getFrom_err_stop h0 (fun hc => hs hc.1)]

/-- Witness for C6 at status 403. -/
theorem get_permanent_no_retry_witness :
    get (fun _ => (HttpOutcome.err 403 : HttpOutcome Nat)) =
      ⟨Except.error 403, 1, 0⟩ :=
  get_permanent_no_retry _ 403 (by decide) rfl

/-! ## Theorems about `get_candles` -/

/-- Every request window issued by `get_candles` ends strictly before
`end_date`: `safe_end = end_date - 300min`, cursors stay below
`safe_end`, and each window spans another 300 minutes. -/
theorem get_candles_windows_end_lt {s e : Int} :
    ∀ w ∈ get_candles_windows s e, w.2 < e := by
  intro w hw
  unfold get_candles_windows at hw
  by_cases hc : e - pageSpan < s
  · rw [if_pos hc] at hw
    exact absurd hw (List.not_mem_nil w)
  · rw [if_neg hc] at hw
    have h1 := daterange_fst_bounds w hw
    have h2 := daterange_snd_eq w hw
    simp only [pageSpan] at h1 h2
    omega

/-- Every batch yielded by the window walk is the successful fetch
result of one of the windows. -/
theorem fetchBatches_mem {β : Type} {fetch : Int × Int → Except Nat β} :
    ∀ {ws : List (Int × Int)} {b : β}, b ∈ fetchBatches fetch ws →
      ∃ w ∈ ws, fetch w = Except.ok b := by
  intro ws
  induction ws with
  | nil =>
    intro b hb
    rw [fetchBatches] at hb
    exact absurd hb (List.not_mem_nil b)
  | cons w ws ih =>
    intro b hb
    rw [fetchBatches] at hb
    cases hfw : fetch w with
    | ok bw =>
      rw [hfw] at hb
      simp only [List.mem_cons] at hb
      rcases hb with hb | hb
      · exact ⟨w, List.mem_cons_self w ws, by rw [hfw, hb]⟩
      · obtain ⟨w', hw', hfw'⟩ := ih hb
        exact ⟨w', List.mem_cons_of_mem w hw', hfw'⟩
    | error s =>
      rw [hfw] at hb
      exact absurd hb (List.not_mem_nil b)

/-- `poolFetch` satisfies the upstream API contract. -/
theorem poolFetch_conforming (pool : List Candle) :
    ConformingFetch (poolFetch pool) := by
  intro w b hb c hc
  rw [poolFetch, Except.ok.injEq] at hb
  rw [← hb] at hc
  exact of_decide_eq_true (List.mem_filter.mp hc).2

/-- C1 (amended): under the upstream API contract, every record in every
batch yielded by `get_candles(product, start_date, end_date)` has `time`
strictly earlier than `end_date` — the "now" captured once when the
default argument was evaluated — but not necessarily earlier than
`end_date` minus the 300-minute freshness margin: the final window may
request times inside the margin. -/
theorem freshness_margin_amended
    (fetch : Int × Int → Except Nat (List Candle))
    (hconf : ConformingFetch fetch) (s e : Int) :
    ∀ b ∈ get_candles fetch s e, ∀ c ∈ b, candleTime c < e := by
  intro b hb c hc
  obtain ⟨w, hw, hfw⟩ := fetchBatches_mem hb
  have h2 := (hconf w b hfw c hc).2
  have hwe := get_candles_windows_end_lt w hw
  omega

/-- The windows issued for `start_date = 699`, `end_date = 1000`:
`safe_end = 700` and the single window overshoots it, ending at 999. -/
theorem ex_windows : get_candles_windows 699 1000 = [(699, 999)] := by
  unfold get_candles_windows pageSpan
  norm_num
  rw [daterange_eq_cons (by norm_num) (by norm_num)]
  rw [daterange_eq_nil (by norm_num)]
  norm_num

/-- Witness for the amended C1 at the input of the counterexample: the
record yielded there is indeed dated before `end_date = 1000`. -/
theorem freshness_margin_amended_witness :
    candleTime [998, 0, 0, 0, 0, 0] < 1000 :=
  freshness_margin_amended (poolFetch [[998, 0, 0, 0, 0, 0]])
    (poolFetch_conforming _) 699 1000 [[998, 0, 0, 0, 0, 0]]
    (by rw [get_candles, ex_windows]; decide)
    [998, 0, 0, 0, 0, 0] (by decide)

/-- C1, as stated, is false: with `end_date` ("now") = 1000 and
`start_date` = 699, the single request window is `(699, 999)`, which
reaches inside the freshness margin `[700, 1000)`; a conforming API
response places a candle with `time = 998 ≥ 1000 - 300` in the yielded
batch, and that batch is exactly what the driver passes to Store. -/
theorem freshness_margin_counterexample :
    ConformingFetch (poolFetch [[998, 0, 0, 0, 0, 0]]) ∧
    ¬ (∀ b ∈ get_candles (poolFetch [[998, 0, 0, 0, 0, 0]]) 699 1000,
        ∀ c ∈ b, candleTime c < 1000 - 300) := by
  refine ⟨poolFetch_conforming _, fun hall => ?_⟩
  have hgc : get_candles (poolFetch [[998, 0, 0, 0, 0, 0]]) 699 1000 =
      [[[998, 0, 0, 0, 0, 0]]] := by
    rw [get_candles, ex_windows]
    rfl
  rw [hgc] at hall
  have h := hall [[998, 0, 0, 0, 0, 0]] (List.mem_singleton.mpr rfl)
    [998, 0, 0, 0, 0, 0] (List.mem_singleton.mpr rfl)
  norm_num [candleTime] at h

/-- C10: the default `end_date=datetime.now()` is evaluated once at
module load, so two calls omitting `end_date` at different times within
one run use the same end bound: the yielded sequence depends only on the
fetch behaviour and `start_date`, not on the time of the call. -/
theorem default_end_date_call_invariant
    (fetch : Int × Int → Except Nat (List Candle))
    (loadTime t1 t2 start_date : Int) :
    get_candles_default_call fetch loadTime t1 start_date =
      get_candles_default_call fetch loadTime t2 start_date := rfl

/-! ## Theorems about the store -/

theorem hasKey_append (st : Store) (x : Row) (k : String × String) :
    hasKey (st ++ [x]) k = (hasKey st k || (x.key == k)) := by
  simp [hasKey]

theorem hasKey_insertRow (st : Store) (r : Row) (k : String × String) :
    hasKey (insertRow st r) k = (hasKey st k || (r.key == k)) := by
  unfold insertRow
  by_cases h : hasKey st r.key
  · rw [if_pos h]
    by_cases hk : r.key = k
    · rw [← hk, h]
      simp
    · simp [beq_eq_false_iff_ne.mpr hk]
  · rw [if_neg h]
    exact hasKey_append st r k

/-- A row present in the store stays present through a single insert. -/
theorem mem_insertRow {st : Store} {r : Row} (r' : Row) (h : r ∈ st) :
    r ∈ insertRow st r' := by
  unfold insertRow
  split
  · exact h
  · exact List.mem_append_left _ h

/-- A row present in the store stays present through a batch insert. -/
theorem mem_insertRows (rs : List Row) :
    ∀ st : Store, ∀ r ∈ st, r ∈ insertRows st rs := by
  induction rs with
  | nil =>
    intro st r h
    exact h
  | cons x rs ih =>
    intro st r h
    exact ih (insertRow st x) r (mem_insertRow x h)

theorem hasKey_mono_insertRows (rs : List Row) :
    ∀ (st : Store) (k : String × String), hasKey st k = true →
      hasKey (insertRows st rs) k = true := by
  induction rs with
  | nil =>
    intro st k h
    exact h
  | cons x rs ih =>
    intro st k h
    refine ih (insertRow st x) k ?_
    rw [hasKey_insertRow, h]
    rfl

/-- After a batch insert, every inserted row's key is present. -/
theorem hasKey_insertRows_self (rs : List Row) :
    ∀ st : Store, ∀ r ∈ rs, hasKey (insertRows st rs) r.key = true := by
  induction rs with
  | nil =>
    intro st r h
    exact absurd h (List.not_mem_nil r)
  | cons x rs ih =>
    intro st r h
    simp only [List.mem_cons] at h
    rcases h with h | h
    · subst h
      refine hasKey_mono_insertRows rs (insertRow st r) r.key ?_
      rw [hasKey_insertRow]
      simp
    · exact ih (insertRow st x) r h

/-- A batch insert whose keys are all already present changes nothing. -/
theorem insertRows_noop (rs : List Row) :
    ∀ st : Store, (∀ r ∈ rs, hasKey st r.key = true) → insertRows st rs = st := by
  induction rs with
  | nil =>
    intro st _
    rfl
  | cons x rs ih =>
    intro st h
    have hx : insertRow st x = st := by
      unfold insertRow
      rw [if_pos (h x (List.mem_cons_self x rs))]
    show insertRows (insertRow st x) rs = st
    rw [hx]
    exact ih st (fun r hr => h r (List.mem_cons_of_mem x hr))

/-- A batch insert only appends rows. -/
theorem insertRows_append (rs : List Row) :
    ∀ st : Store, ∃ tail, insertRows st rs = st ++ tail := by
  induction rs with
  | nil =>
    intro st
    exact ⟨[], (List.append_nil st).symm⟩
  | cons x rs ih =>
    intro st
    have hx : ∃ t0, insertRow st x = st ++ t0 := by
      unfold insertRow
      split
      · exact ⟨[], (List.append_nil st).symm⟩
      · exact ⟨[x], rfl⟩
    obtain ⟨t0, ht0⟩ := hx
    obtain ⟨t1, ht1⟩ := ih (insertRow st x)
    refine ⟨t0 ++ t1, ?_⟩
    show insertRows (insertRow st x) rs = st ++ (t0 ++ t1)
    rw [ht1, ht0, List.append_assoc]

/-- C5: inserting the same batch twice through `insert_db` leaves the
store exactly as after one insertion — in particular the stored row
count is the same — and an insertion never rewrites existing rows: it
only appends (rows are keyed by `(market, time)` and duplicate keys are
ignored). -/
theorem insert_db_idempotent (st : Store) (p : String) (cs : List Candle) :
    insert_db (insert_db st p cs) p cs = insert_db st p cs ∧
    (insert_db (insert_db st p cs) p cs).length = (insert_db st p cs).length ∧
    ∃ tail, insert_db st p cs = st ++ tail := by
  have hidem : insert_db (insert_db st p cs) p cs = insert_db st p cs :=
    insertRows_noop (candleRows p cs) (insertRows st (candleRows p cs))
      (fun r hr => hasKey_insertRows_self (candleRows p cs) st r hr)
  exact ⟨hidem, by rw [hidem], insertRows_append (candleRows p cs) st⟩

/-- A candle is turned into a row exactly when it has 6 fields. -/
theorem rowOfCandle_eq_none_iff (p : String) (c : Candle) :
    rowOfCandle p c = none ↔ c.length ≠ 6 := by
  unfold rowOfCandle
  split
  · rename_i h
    simp [h]
  · rename_i h
    simp [h]

/-- `INSERT OR IGNORE` of a row whose key is absent appends the row. -/
theorem insertRow_fresh {st : Store} {r : Row}
    (h : hasKey st r.key = false) : insertRow st r = st ++ [r] := by
  unfold insertRow
  rw [h]
  rfl

/-- Every batch splits exactly into rows attempted and warnings logged:
each record either becomes one row or is skipped with one warning. -/
theorem candleRows_add_warnings (p : String) (cs : List Candle) :
    (candleRows p cs).length + insertWarnings cs = cs.length := by
  induction cs with
  | nil => rfl
  | cons c cs ih =>
    unfold candleRows insertWarnings at ih ⊢
    by_cases h : c.length = 6
    · obtain ⟨r, hr⟩ : ∃ r, rowOfCandle p c = some r := by
        cases hr : rowOfCandle p c with
        | none => exact absurd ((rowOfCandle_eq_none_iff p c).mp hr) (by simp [h])
        | some r => exact ⟨r, rfl⟩
      rw [List.filterMap_cons, List.filter_cons, hr]
      rw [show (c.length != 6) = false by simp [h]]
      rw [if_neg Bool.false_ne_true]
      simp only [List.length_cons]
      omega
    · rw [List.filterMap_cons, List.filter_cons,
        (rowOfCandle_eq_none_iff p c).mpr h]
      rw [show (c.length != 6) = true by simp [h]]
      rw [if_pos rfl]
      simp only [List.length_cons]
      omega

/-- Inserting rows with fresh, pairwise-distinct keys grows the store by
exactly the number of rows. -/
theorem insertRows_length_fresh (rs : List Row) :
    ∀ st : Store, (∀ r ∈ rs, hasKey st r.key = false) →
      List.Pairwise (fun a b => Row.key a ≠ Row.key b) rs →
      (insertRows st rs).length = st.length + rs.length := by
  induction rs with
  | nil =>
    intro st _ _
    simp [insertRows]
  | cons x rs ih =>
    intro st hf hp
    have hx : insertRow st x = st ++ [x] :=
      insertRow_fresh (hf x (List.mem_cons_self x rs))
    show (insertRows (insertRow st x) rs).length = st.length + (rs.length + 1)
    rw [hx, ih (st ++ [x]) ?_ (List.Pairwise.of_cons hp)]
    · simp
      omega
    · intro r hr
      rw [hasKey_append, hf r (List.mem_cons_of_mem x hr)]
      have : x.key ≠ r.key := (List.pairwise_cons.mp hp).1 r hr
      simp [this]

/-- C8: `insert_db` skips every record that does not have exactly 6
fields, logging one warning for it, and keeps processing: rows attempted
and warnings partition the batch, and when the well-formed rows carry
fresh pairwise-distinct keys, exactly the well-formed records are
inserted. -/
theorem malformed_record_skip (st : Store) (p : String) (cs : List Candle)
    (hfresh : ∀ r ∈ candleRows p cs, hasKey st r.key = false)
    (hnodup : List.Pairwise (fun a b => Row.key a ≠ Row.key b) (candleRows p cs)) :
    (insert_db st p cs).length = st.length + (candleRows p cs).length ∧
    (candleRows p cs).length + insertWarnings cs = cs.length ∧
    insertWarnings cs = (cs.filter (fun c => c.length != 6)).length := by
  exact ⟨insertRows_length_fresh (candleRows p cs) st hfresh hnodup,
    candleRows_add_warnings p cs, rfl⟩

/-- Witness for C8: a batch of five records where exactly one has 5
fields instead of 6 produces exactly four inserted rows and one
warning. -/
theorem malformed_record_skip_witness :
    (insert_db [] "BTC-USD"
      [[1, 2, 3, 4, 5, 6], [2, 2, 3, 4, 5, 6], [3, 2, 3, 4, 5, 6],
       [9, 9, 9, 9, 9], [4, 2, 3, 4, 5, 6]]).length = ([] : Store).length + 4 ∧
    4 + insertWarnings
      [[1, 2, 3, 4, 5, 6], [2, 2, 3, 4, 5, 6], [3, 2, 3, 4, 5, 6],
       [9, 9, 9, 9, 9], [4, 2, 3, 4, 5, 6]] = 5 ∧
    insertWarnings
      [[1, 2, 3, 4, 5, 6], [2, 2, 3, 4, 5, 6], [3, 2, 3, 4, 5, 6],
       [9, 9, 9, 9, 9], [4, 2, 3, 4, 5, 6]] =
      ([[1, 2, 3, 4, 5, 6], [2, 2, 3, 4, 5, 6], [3, 2, 3, 4, 5, 6],
        [9, 9, 9, 9, 9], [4, 2, 3, 4, 5, 6]].filter
          (fun c => c.length != 6)).length := by
  have h := malformed_record_skip [] "BTC-USD"
    [[1, 2, 3, 4, 5, 6], [2, 2, 3, 4, 5, 6], [3, 2, 3, 4, 5, 6],
     [9, 9, 9, 9, 9], [4, 2, 3, 4, 5, 6]]
    (by decide) (by decide)
  have hlen : (candleRows "BTC-USD"
      [[1, 2, 3, 4, 5, 6], [2, 2, 3, 4, 5, 6], [3, 2, 3, 4, 5, 6],
       [9, 9, 9, 9, 9], [4, 2, 3, 4, 5, 6]]).length = 4 := by decide
  rw [hlen] at h
  exact ⟨h.1, h.2.1.trans rfl, h.2.2⟩

/-- C9: a well-formed API record `[time, low, high, open, close,
volume]` inserted under a fresh key is appended as the row whose
`open`, `high`, `low`, `close` and `volume` columns hold the string form
of the record's `open`, `high`, `low`, `close` and `volume` fields: the
INSERT statement's column list realigns the API array order onto the
table's declared column order. -/
theorem stored_row_field_mapping (st : Store) (p : String)
    (t l h o c v : Int) (hfresh : hasKey st (p, toString t) = false) :
    insert_db st p [[t, l, h, o, c, v]] =
      st ++ [{ market := p, time := toString t, open_ := toString o,
               high := toString h, low := toString l, close := toString c,
               volume := toString v }] := by
  have hrow : candleRows p [[t, l, h, o, c, v]] =
      [{ market := p, time := toString t, open_ := toString o,
         high := toString h, low := toString l, close := toString c,
         volume := toString v }] := by
    unfold candleRows rowOfCandle
    rfl
  unfold insert_db
  rw [hrow]
  exact insertRow_fresh hfresh

/-- Witness for C9 at a concrete record. -/
theorem stored_row_field_mapping_witness :
    insert_db [] "BTC-USD" [[1, 2, 3, 4, 5, 6]] =
      [] ++ [{ market := "BTC-USD", time := toString (1 : Int),
               open_ := toString (4 : Int), high := toString (3 : Int),
               low := toString (2 : Int), close := toString (5 : Int),
               volume := toString (6 : Int) }] :=
  stored_row_field_mapping [] "BTC-USD" 1 2 3 4 5 6 rfl

/-! ## Theorems about the driver loop -/

/-- When every window before some failing window fetches successfully
and that window's fetch raises a terminal `HTTPError`, the batch
sequence ends with the batches of the earlier windows: the later windows
are abandoned and no failure propagates (the result is an ordinary
list). -/
theorem fetchBatches_cons_ok {β : Type} {fetch : Int × Int → Except Nat β}
    {w : Int × Int} {ws : List (Int × Int)} {b : β}
    (h : fetch w = Except.ok b) :
    fetchBatches fetch (w :: ws) = b :: fetchBatches fetch ws := by
  rw [fetchBatches, h]

theorem fetchBatches_cons_err {β : Type} {fetch : Int × Int → Except Nat β}
    {w : Int × Int} {ws : List (Int × Int)} {s : Nat}
    (h : fetch w = Except.error s) :
    fetchBatches fetch (w :: ws) = [] := by
  rw [fetchBatches, h]

theorem fetchBatches_stops (fetch : Int × Int → Except Nat (List Candle))
    (e : Nat) :
    ∀ (ws1 : List (Int × Int)) (w : Int × Int) (ws2 : List (Int × Int)),
      (∀ w' ∈ ws1, ∃ bw, fetch w' = Except.ok bw) →
      fetch w = Except.error e →
      fetchBatches fetch (ws1 ++ w :: ws2) = fetchBatches fetch ws1 := by
  intro ws1
  induction ws1 with
  | nil =>
    intro w ws2 _ he
    rw [List.nil_append, fetchBatches_cons_err he]
    rfl
  | cons x ws1 ih =>
    intro w ws2 h he
    obtain ⟨bx, hbx⟩ := h x (List.mem_cons_self x ws1)
    rw [List.cons_append, fetchBatches_cons_ok hbx, fetchBatches_cons_ok hbx,
      ih w ws2 (fun w' hw' => h w' (List.mem_cons_of_mem x hw')) he]

/-- C7: a terminal fetch failure at any window ends `get_candles`'s
batch sequence right there with the batches of the preceding windows —
nothing is raised to the caller, so the value is a plain list — the
driver's loop goes on to the remaining products, and rows already
persisted are still present after any further batch insert. -/
theorem terminal_failure_abandons_product
    (fetch : Int × Int → Except Nat (List Candle)) (e : Nat)
    (ws1 ws2 : List (Int × Int)) (w : Int × Int) (st : Store) (p : String)
    (b : List Candle)
    (fetchAll : String → Int × Int → Except Nat (List Candle))
    (startOf : String → Int) (endDate : Int) (ps : List String)
    (hok : ∀ w' ∈ ws1, ∃ bw, fetch w' = Except.ok bw)
    (herr : fetch w = Except.error e) :
    fetchBatches fetch (ws1 ++ w :: ws2) = fetchBatches fetch ws1 ∧
    (∀ r ∈ st, r ∈ insert_db st p b) ∧
    runAll fetchAll startOf endDate st (p :: ps) =
      runAll fetchAll startOf endDate
        (runProduct (fetchAll p) st p (startOf p) endDate) ps :=
  ⟨fetchBatches_stops fetch e ws1 w ws2 hok herr,
   fun r hr => mem_insertRows (candleRows p b) st r hr,
   rfl⟩

/-- Witness for C7: one successful window, then a failing one. -/
theorem terminal_failure_abandons_product_witness :
    fetchBatches
        (fun w => if w = ((0 : Int), (300 : Int))
          then Except.ok ([[1, 2, 3, 4, 5, 6]] : List Candle)
          else Except.error 429)
        ([(0, 300)] ++ (300, 600) :: [(600, 900)]) =
      fetchBatches
        (fun w => if w = ((0 : Int), (300 : Int))
          then Except.ok ([[1, 2, 3, 4, 5, 6]] : List Candle)
          else Except.error 429)
        [(0, 300)] ∧
    (∀ r ∈ ([] : Store),
      r ∈ insert_db [] "BTC-USD" ([[1, 2, 3, 4, 5, 6]] : List Candle)) ∧
    runAll (fun _ _ => Except.error 429) (fun _ => 0) 0 [] ["BTC-USD", "ETH-USD"] =
      runAll (fun _ _ => Except.error 429) (fun _ => 0) 0
        (runProduct (fun _ => Except.error 429) [] "BTC-USD" 0 0) ["ETH-USD"] :=
  terminal_failure_abandons_product
    (fun w => if w = ((0 : Int), (300 : Int))
      then Except.ok ([[1, 2, 3, 4, 5, 6]] : List Candle)
      else Except.error 429)
    429 [(0, 300)] [(600, 900)] (300, 600) [] "BTC-USD"
    ([[1, 2, 3, 4, 5, 6]] : List Candle)
    (fun _ _ => Except.error 429) (fun _ => 0) 0 ["ETH-USD"]
    (by
      intro w' hw'
      simp only [List.mem_singleton] at hw'
      exact ⟨([[1, 2, 3, 4, 5, 6]] : List Candle), by rw [hw']; rfl⟩)
    rfl

/-! ## Theorems about start-date resolution

SQLite's `max` over the TEXT column `time` compares byte-lexicographically,
while the spec's resume claim reads "the maximum stored timestamp"
numerically.  For decimal digit strings of equal length the two orders
agree, which is proved below; for unequal lengths they can differ. -/

/-- Folding the digit accumulator from `a` splits off the prefix value. -/
theorem foldl_digits (l : List Char) :
    ∀ a : Nat, l.foldl (fun a c => 10 * a + (c.toNat - 48)) a =
      a * 10 ^ l.length + digitsVal l := by
  induction l with
  | nil =>
    intro a
    simp [digitsVal]
  | cons c l ih =>
    intro a
    have hval : digitsVal (c :: l) =
        (c.toNat - 48) * 10 ^ l.length + digitsVal l := by
      show (c :: l).foldl (fun a c => 10 * a + (c.toNat - 48)) 0 = _
      rw [List.foldl_cons, ih]
      norm_num
    rw [List.foldl_cons, ih, hval, List.length_cons]
    ring

/-- The head digit splits off the value of a digit string. -/
theorem digitsVal_cons (c : Char) (l : List Char) :
    digitsVal (c :: l) = (c.toNat - 48) * 10 ^ l.length + digitsVal l := by
  show (c :: l).foldl (fun a c => 10 * a + (c.toNat - 48)) 0 = _
  rw [List.foldl_cons, foldl_digits]
  norm_num

theorem isDigitStr_mem {s : String} (h : isDigitStr s = true) :
    ∀ c ∈ s.data, 48 ≤ c.toNat ∧ c.toNat ≤ 57 := by
  intro c hc
  have hall := List.all_eq_true.mp h c hc
  simp only [Bool.and_eq_true, decide_eq_true_eq] at hall
  exact hall

/-- The value of a digit string is below `10 ^ length`. -/
theorem digitsVal_lt_pow (l : List Char)
    (h : ∀ c ∈ l, 48 ≤ c.toNat ∧ c.toNat ≤ 57) :
    digitsVal l < 10 ^ l.length := by
  induction l with
  | nil => simp [digitsVal]
  | cons c l ih =>
    have hd : c.toNat - 48 ≤ 9 := by
      have := (h c (List.mem_cons_self c l)).2
      omega
    have hv := ih (fun x hx => h x (List.mem_cons_of_mem c hx))
    rw [digitsVal_cons, List.length_cons]
    have h1 : (c.toNat - 48) * 10 ^ l.length ≤ 9 * 10 ^ l.length :=
      Nat.mul_le_mul_right _ hd
    have h2 : (10 : Nat) ^ (l.length + 1) = 10 * 10 ^ l.length := by ring
    omega

/-- On equal-length decimal digit strings, byte-lexicographic comparison
agrees with numeric comparison. -/
theorem bytesLt_iff_val : ∀ (as bs : List Char), as.length = bs.length →
    (∀ c ∈ as, 48 ≤ c.toNat ∧ c.toNat ≤ 57) →
    (∀ c ∈ bs, 48 ≤ c.toNat ∧ c.toNat ≤ 57) →
    (bytesLt as bs = true ↔ digitsVal as < digitsVal bs) := by
  intro as
  induction as with
  | nil =>
    intro bs hlen _ _
    cases bs with
    | nil => simp [bytesLt, digitsVal]
    | cons b bs => simp at hlen
  | cons a as ih =>
    intro bs hlen ha hb
    cases bs with
    | nil => simp at hlen
    | cons b bs =>
      have hlen' : as.length = bs.length := by simpa using hlen
      have hda := ha a (List.mem_cons_self a as)
      have hdb := hb b (List.mem_cons_self b bs)
      have hva : digitsVal as < 10 ^ as.length :=
        digitsVal_lt_pow as (fun c hc => ha c (List.mem_cons_of_mem a hc))
      have hvb : digitsVal bs < 10 ^ bs.length :=
        digitsVal_lt_pow bs (fun c hc => hb c (List.mem_cons_of_mem b hc))
      rw [digitsVal_cons, digitsVal_cons, bytesLt, ← hlen']
      rw [← hlen'] at hvb
      by_cases hab : a.toNat < b.toNat
      · rw [if_pos hab]
        have hdd : a.toNat - 48 + 1 ≤ b.toNat - 48 := by omega
        have h1 : (a.toNat - 48 + 1) * 10 ^ as.length ≤
            (b.toNat - 48) * 10 ^ as.length :=
          Nat.mul_le_mul_right _ hdd
        have h2 : (a.toNat - 48 + 1) * 10 ^ as.length =
            (a.toNat - 48) * 10 ^ as.length + 10 ^ as.length := by ring
        exact iff_of_true rfl (by omega)
      · rw [if_neg hab]
        by_cases hba : b.toNat < a.toNat
        · rw [if_pos hba]
          have hdd : b.toNat - 48 + 1 ≤ a.toNat - 48 := by omega
          have h1 : (b.toNat - 48 + 1) * 10 ^ as.length ≤
              (a.toNat - 48) * 10 ^ as.length :=
            Nat.mul_le_mul_right _ hdd
          have h2 : (b.toNat - 48 + 1) * 10 ^ as.length =
              (b.toNat - 48) * 10 ^ as.length + 10 ^ as.length := by ring
          exact iff_of_false (by simp) (by omega)
        · rw [if_neg hba]
          have heq : a.toNat = b.toNat := by omega
          rw [heq]
          have hiff := ih bs hlen'
            (fun c hc => ha c (List.mem_cons_of_mem a hc))
            (fun c hc => hb c (List.mem_cons_of_mem b hc))
          constructor
          · intro hlt
            have := hiff.mp hlt
            omega
          · intro hlt
            exact hiff.mpr (by omega)

/-- `textLt` on equal-length digit strings is numeric comparison. -/
theorem textLt_iff_strVal {s t : String} (hlen : s.data.length = t.data.length)
    (hs : isDigitStr s = true) (ht : isDigitStr t = true) :
    (textLt s t = true ↔ strVal s < strVal t) :=
  bytesLt_iff_val s.data t.data hlen (isDigitStr_mem hs) (isDigitStr_mem ht)

/-- The `max` fold over equal-length digit strings returns an element
that is numerically greatest. -/
theorem sqlmax_fold (L : Nat) :
    ∀ (l : List String) (t : String),
      isDigitStr t = true → t.data.length = L →
      (∀ x ∈ l, isDigitStr x = true ∧ x.data.length = L) →
      ∃ m, l.foldl sqlMaxStep (some t) = some m ∧
        (m = t ∨ m ∈ l) ∧ isDigitStr m = true ∧ m.data.length = L ∧
        strVal t ≤ strVal m ∧ ∀ x ∈ l, strVal x ≤ strVal m := by
  intro l
  induction l with
  | nil =>
    intro t hdt hlt _
    exact ⟨t, rfl, Or.inl rfl, hdt, hlt, le_refl _,
      fun x hx => absurd hx (List.not_mem_nil x)⟩
  | cons x l ih =>
    intro t hdt hlt hall
    have hdx := (hall x (List.mem_cons_self x l)).1
    have hlx := (hall x (List.mem_cons_self x l)).2
    have hrest : ∀ y ∈ l, isDigitStr y = true ∧ y.data.length = L :=
      fun y hy => hall y (List.mem_cons_of_mem x hy)
    by_cases hc : textLt t x = true
    · have hred : (x :: l).foldl sqlMaxStep (some t) =
          l.foldl sqlMaxStep (some x) := by
        rw [List.foldl_cons]
        show l.foldl sqlMaxStep (some (if textLt t x then x else t)) = _
        rw [if_pos hc]
      have hge1 : strVal t ≤ strVal x :=
        le_of_lt ((textLt_iff_strVal (hlt.trans hlx.symm) hdt hdx).mp hc)
      obtain ⟨m, hm, hmem, hdm, hlm, hge, hallm⟩ := ih x hdx hlx hrest
      refine ⟨m, by rw [hred]; exact hm, ?_, hdm, hlm, le_trans hge1 hge, ?_⟩
      · rcases hmem with h | h
        · exact Or.inr (h ▸ List.mem_cons_self x l)
        · exact Or.inr (List.mem_cons_of_mem x h)
      · intro y hy
        rcases List.mem_cons.mp hy with h | h
        · subst h
          exact hge
        · exact hallm y h
    · have hred : (x :: l).foldl sqlMaxStep (some t) =
          l.foldl sqlMaxStep (some t) := by
        rw [List.foldl_cons]
        show l.foldl sqlMaxStep (some (if textLt t x then x else t)) = _
        rw [if_neg hc]
      have hge1 : strVal x ≤ strVal t := by
        have hnot := (textLt_iff_strVal (hlt.trans hlx.symm) hdt hdx).not.mp hc
        omega
      obtain ⟨m, hm, hmem, hdm, hlm, hge, hallm⟩ := ih t hdt hlt hrest
      refine ⟨m, by rw [hred]; exact hm, ?_, hdm, hlm, hge, ?_⟩
      · rcases hmem with h | h
        · exact Or.inl h
        · exact Or.inr (List.mem_cons_of_mem x h)
      · intro y hy
        rcases List.mem_cons.mp hy with h | h
        · subst h
          exact le_trans hge1 hge
        · exact hallm y h

/-- C3 (amended): with no override, an instrument whose stored `time`
strings are decimal digit strings of one common length (as all epoch
timestamps written by this importer are) resumes from the numeric
maximum stored timestamp, as a UTC datetime; with no rows it starts from
the registry date; an explicit override takes precedence over both.  In
general — for unequal-length digit strings — `get_start_date` returns
`int()` of the *lexicographically* greatest `time` string, which need
not be the maximum timestamp. -/
theorem resume_start_date (st st0 : Store) (p : String) (L : Nat)
    (s d : String)
    (hdig : ∀ x ∈ timesOf st p, isDigitStr x = true ∧ x.data.length = L)
    (hne : timesOf st p ≠ [])
    (h0 : timesOf st0 p = [])
    (hreg : PRODUCTS.lookup p = some d) :
    (∃ n, resolveStartDate none p st = some (PyDatetime.fromTimestamp n) ∧
      n ∈ (timesOf st p).map strVal ∧
      ∀ v ∈ (timesOf st p).map strVal, v ≤ n) ∧
    resolveStartDate none p st0 = some (PyDatetime.fromDateString d) ∧
    resolveStartDate (some s) p st = some (PyDatetime.fromDateString s) := by
  refine ⟨?_, ?_, rfl⟩
  · obtain ⟨x, rest, hx⟩ : ∃ x rest, timesOf st p = x :: rest := by
      cases hxx : timesOf st p with
      | nil => exact absurd hxx hne
      | cons a b => exact ⟨a, b, rfl⟩
    have hdx := hdig x (by rw [hx]; exact List.mem_cons_self _ _)
    obtain ⟨m, hm, hmem, hdm, hlm, hge, hallm⟩ :=
      sqlmax_fold L rest x hdx.1 hdx.2
        (fun y hy => hdig y (by rw [hx]; exact List.mem_cons_of_mem _ hy))
    have hmax : maxTimeStr st p = some m := by
      rw [maxTimeStr, hx, List.foldl_cons]
      exact hm
    refine ⟨strVal m, ?_, ?_, ?_⟩
    · show get_start_date p st = _
      rw [get_start_date, hmax]
    · rw [hx]
      rcases hmem with h | h
      · exact h ▸ List.mem_map_of_mem _ (List.mem_cons_self _ _)
      · exact List.mem_map_of_mem _ (List.mem_cons_of_mem _ h)
    · intro v hv
      rw [hx] at hv
      obtain ⟨y, hy, rfl⟩ := List.mem_map.mp hv
      rcases List.mem_cons.mp hy with h | h
      · subst h
        exact hge
      · exact hallm y h
  · show get_start_date p st0 = _
    rw [get_start_date, maxTimeStr, h0]
    simp [hreg]

/-- Witness for the amended C3: two stored 10-digit timestamps for
BTC-USD, an empty store, a registry product and an override. -/
theorem resume_start_date_witness :
    (∃ n, resolveStartDate none "BTC-USD"
        [⟨"BTC-USD", "1700000000", "1", "1", "1", "1", "1"⟩,
         ⟨"BTC-USD", "1700000100", "1", "1", "1", "1", "1"⟩] =
          some (PyDatetime.fromTimestamp n) ∧
      n ∈ (timesOf
        [⟨"BTC-USD", "1700000000", "1", "1", "1", "1", "1"⟩,
         ⟨"BTC-USD", "1700000100", "1", "1", "1", "1", "1"⟩] "BTC-USD").map strVal ∧
      ∀ v ∈ (timesOf
        [⟨"BTC-USD", "1700000000", "1", "1", "1", "1", "1"⟩,
         ⟨"BTC-USD", "1700000100", "1", "1", "1", "1", "1"⟩] "BTC-USD").map strVal,
        v ≤ n) ∧
    resolveStartDate none "BTC-USD" [] =
      some (PyDatetime.fromDateString "2015-01-08") ∧
    resolveStartDate (some "2021-01-01") "BTC-USD"
        [⟨"BTC-USD", "1700000000", "1", "1", "1", "1", "1"⟩,
         ⟨"BTC-USD", "1700000100", "1", "1", "1", "1", "1"⟩] =
      some (PyDatetime.fromDateString "2021-01-01") :=
  resume_start_date
    [⟨"BTC-USD", "1700000000", "1", "1", "1", "1", "1"⟩,
     ⟨"BTC-USD", "1700000100", "1", "1", "1", "1", "1"⟩]
    [] "BTC-USD" 10 "2021-01-01" "2015-01-08"
    (by decide) (by decide) (by decide) (by decide)

/-- C3, as stated, is false: `max(time)` compares TEXT, so with stored
times "999" and "1000" for BTC-USD the computed start date is
`utcfromtimestamp(999)` although the maximum stored timestamp is 1000. -/
theorem resume_start_date_counterexample :
    resolveStartDate none "BTC-USD"
        [⟨"BTC-USD", "999", "1", "1", "1", "1", "1"⟩,
         ⟨"BTC-USD", "1000", "1", "1", "1", "1", "1"⟩] =
      some (PyDatetime.fromTimestamp 999) ∧
    (∃ r ∈ ([⟨"BTC-USD", "999", "1", "1", "1", "1", "1"⟩,
             ⟨"BTC-USD", "1000", "1", "1", "1", "1", "1"⟩] : Store),
      r.market = "BTC-USD" ∧ strVal r.time = 1000) ∧
    (999 : Nat) < 1000 := by
  refine ⟨by decide, ⟨⟨"BTC-USD", "1000", "1", "1", "1", "1", "1"⟩, ?_, rfl, by decide⟩, by decide⟩
  decide

end GdaxImport
